import Mathlib

/-!
Verification of the borehole-log layout and pagination engine.

The definitions below are a shallow embedding of the Python sources:
`plot_dummy_borehole_log` and its helpers in
`borehole_log_professional_dummy2.py` (pagination, clipping, depth/level
label policy, bar clipping, closing line, ruler ticks) and `_wrap_text`
in `borehole_log_professional.py` (greedy word wrap).  Python floats are
modelled as exact rationals; Python strings are modelled as `List Char`.
-/

set_option maxRecDepth 4000

/-- A stratum interval as one row of the borehole data frame:
`Depth_Top`, `Depth_Base`, `Geology_Code`, `Description`. -/
structure Stratum where
  top : ℚ
  base : ℚ
  code : String
  description : String
deriving DecidableEq

/-- A clipped per-page segment, as built in the page loop of
`plot_dummy_borehole_log` (fields `orig_idx`, `Depth_Top`, `Depth_Base`,
`Geology_Code`, `Description`, `orig_Depth_Top`, `orig_Depth_Base`). -/
structure Seg where
  origIdx : ℕ
  top : ℚ
  base : ℚ
  code : String
  description : String
  origTop : ℚ
  origBase : ℚ
deriving DecidableEq

/-- `page_top = (page_num - 1) * 10`. -/
def pageTop (p : ℕ) : ℚ := ((10 * (p - 1) : ℕ) : ℚ)

/-- `page_bot = page_num * 10`. -/
def pageBot (p : ℕ) : ℚ := ((10 * p : ℕ) : ℚ)

/-- `bottom_line_y = 0.025`. -/
def bottomLineY : ℚ := 0.025

/-- The per-page depth-to-y map: `1 - (1 - bottom_line_y) * ((depth - page_top) / 10.0)`. -/
def depthToY (pt : ℚ) (d : ℚ) : ℚ := 1 - (1 - bottomLineY) * ((d - pt) / 10)

/-- Clipping of one selected row to the page:
`seg_top = max(d1, page_top)`, `seg_base = min(d2, page_bot)`,
keeping the original row index and boundaries. -/
def clipRow (p : ℕ) (i : ℕ) (r : Stratum) : Seg :=
  { origIdx := i
    top := max r.top (pageTop p)
    base := min r.base (pageBot p)
    code := r.code
    description := r.description
    origTop := r.top
    origBase := r.base }

/-- The interval-selection loop of `plot_dummy_borehole_log`: rows with
`d2 <= page_top or d1 >= page_bot` are skipped, the others are clipped;
`i` is the running row index of `iterrows`. -/
def clipAux (p : ℕ) : ℕ → List Stratum → List Seg
  | _, [] => []
  | i, r :: rest =>
    if r.base ≤ pageTop p ∨ pageBot p ≤ r.top then clipAux p (i + 1) rest
    else clipRow p i r :: clipAux p (i + 1) rest

/-- The list `intervals` built for one page. -/
def clipPage (data : List Stratum) (p : ℕ) : List Seg := clipAux p 0 data

/-- `log_depth = DUMMY_BOREHOLE_DATA["Depth_Base"].max()` (0 when the list is empty;
the code would produce NaN there, and the claims only concern non-empty data). -/
def logDepth (data : List Stratum) : ℚ :=
  data.foldl (fun m r => max m r.base) 0

/-- `last_borehole_page = int(np.ceil(log_depth / 10.0))`. -/
def pageCount (data : List Stratum) : ℕ := (⌈logDepth data / 10⌉).toNat

/-- The loop `for page_num in range(1, last_borehole_page + 1)`. -/
def pageNums (data : List Stratum) : List ℕ := List.range' 1 (pageCount data)

/-- Data-model invariant assumed by the layout engine:
`0 <= top_depth < base_depth`, intervals contiguous in order
(top of interval i+1 equals base of interval i). -/
def ValidRow (r : Stratum) : Prop := 0 ≤ r.top ∧ r.top < r.base

/-- Well-formed borehole data: validated rows, contiguous in depth order. -/
def WellFormed (data : List Stratum) : Prop :=
  (∀ r ∈ data, ValidRow r) ∧ data.Chain' (fun a b => a.base = b.top)

/-- Sum of the clipped spans that page `p` contributes for source row `i`. -/
def spanSum (data : List Stratum) (p : ℕ) (i : ℕ) : ℚ :=
  (((clipPage data p).filter (fun s => decide (s.origIdx = i))).map
    (fun s => s.base - s.top)).sum

/-- The epsilon `1e-6` used for boundary classification. -/
def eps : ℚ := 1 / 1000000

/-- `show_top = abs(seg["Depth_Top"] - seg["orig_Depth_Top"]) < 1e-6`. -/
def isTrueTop (s : Seg) : Bool := decide (|s.top - s.origTop| < eps)

/-- `show_base = abs(seg["Depth_Base"] - seg["orig_Depth_Base"]) < 1e-6`. -/
def isTrueBottom (s : Seg) : Bool := decide (|s.base - s.origBase| < eps)

/-- The guard `if show_top and seg["Depth_Top"] > 0:` for the top depth/level labels. -/
def showTopLabel (s : Seg) : Bool := isTrueTop s && decide (0 < s.top)

/-- The guard `if show_base:` for the base depth/level labels. -/
def showBaseLabel (s : Seg) : Bool := isTrueBottom s

/-- One lithology bar as drawn for a segment: the rectangle spans
`[y_base_clipped, y_top]`, the code/description text anchor sits at
`y_center = (y_top + y_base_clipped) / 2`; `yBaseRaw` is the unclipped
`y_base = depth_to_y(seg["Depth_Base"])`. -/
structure BarDraw where
  yTop : ℚ
  yBaseRaw : ℚ
  yBot : ℚ
  textY : ℚ
deriving DecidableEq

/-- The bar/text drawing loop: `borehole_end_depth = min(log_depth, page_top + 10)`,
`y_base_clipped = max(y_base, borehole_end_y)`, draw only `if y_top > y_base_clipped`. -/
def pageBars (data : List Stratum) (p : ℕ) : List BarDraw :=
  (clipPage data p).filterMap (fun s =>
    let yTop := depthToY (pageTop p) s.top
    let yBase := depthToY (pageTop p) s.base
    let endDepth := min (logDepth data) (pageTop p + 10)
    let endY := depthToY (pageTop p) endDepth
    let yBaseClipped := max yBase endY
    if yBaseClipped < yTop then
      some { yTop := yTop, yBaseRaw := yBase, yBot := yBaseClipped,
             textY := (yTop + yBaseClipped) / 2 }
    else none)

/-- The closing-line policy: if `borehole_end_depth < page_top + 10` the line is
drawn at `depth_to_y(borehole_end_depth)`, otherwise at `bottom_line_y`. -/
def closingLineY (data : List Stratum) (p : ℕ) : ℚ :=
  let endDepth := min (logDepth data) (pageTop p + 10)
  if endDepth < pageTop p + 10 then depthToY (pageTop p) endDepth else bottomLineY

/-- `marker_start = (page_num - 1) * 10`. -/
def markerStart (p : ℕ) : ℕ := 10 * (p - 1)

/-- `marker_end = page_num * 10`. -/
def markerEnd (p : ℕ) : ℕ := 10 * p

/-- A major ruler tick: drawn for `marker in range(marker_start, marker_end + 1)`
at `y = 1 - (1 - bottom_line_y) * ((marker - marker_start) / 10)`, labeled with
the absolute value `marker`. -/
structure MajorTick where
  depth : ℕ
  label : ℕ
  y : ℚ
deriving DecidableEq

/-- The major-marker loop of the ruler generator. -/
def majorTicks (p : ℕ) : List MajorTick :=
  (List.range' (markerStart p) (markerEnd p + 1 - markerStart p)).map (fun m =>
    { depth := m, label := m,
      y := 1 - (1 - bottomLineY) * (((m : ℚ) - (markerStart p : ℚ)) / 10) })

/-- A minor ruler tick: the code draws it at
`y = 1 - (1 - bottom_line_y) * ((i + sub / 10) / 10)` for `i in range(10)`,
`sub in range(1, 10)`; `depth` records the absolute depth this position
corresponds to, `marker_start + i + sub / 10`. -/
structure MinorTick where
  depth : ℚ
  y : ℚ
deriving DecidableEq

/-- The minor-tick (decimal subtick) loops of the ruler generator. -/
def minorTicks (p : ℕ) : List MinorTick :=
  (List.range 10).flatMap (fun i =>
    (List.range' 1 9).map (fun (sub : ℕ) =>
      { depth := (markerStart p : ℚ) + (i : ℚ) + (sub : ℚ) / 10,
        y := 1 - (1 - bottomLineY) * (((i : ℚ) + (sub : ℚ) / 10) / 10) }))

/-- Python whitespace characters recognised by `str.split()`. -/
def isSpace (c : Char) : Bool :=
  c = ' ' || c = '\t' || c = '\n' || c = '\r' || c = '\x0b' || c = '\x0c'

/-- Helper for `text.split()`: accumulates the current word and flushes it at
whitespace; empty words are dropped. -/
def pySplitAux : List Char → List Char → List (List Char)
  | [], cur => if cur = [] then [] else [cur]
  | c :: s, cur =>
    if isSpace c then (if cur = [] then [] else [cur]) ++ pySplitAux s []
    else pySplitAux s (cur ++ [c])

/-- `text.split()`: whitespace-delimited words, empties dropped. -/
def pySplit (s : List Char) : List (List Char) := pySplitAux s []

/-- `sep.join(parts)`. -/
def joinSep (sep : List Char) : List (List Char) → List Char
  | [] => []
  | w :: ws => w ++ (if ws = [] then [] else sep ++ joinSep sep ws)

/-- The word loop of `_wrap_text`, state `(lines, current_line, current_length)`;
lines are kept as word groups (the code stores `" ".join(current_line)`). -/
def wrapAux (mc : ℕ) :
    List (List (List Char)) → List (List Char) → ℕ → List (List Char) →
    List (List (List Char))
  | gs, cur, _, [] => if cur = [] then gs else gs ++ [cur]
  | gs, cur, curLen, w :: ws =>
    if curLen + w.length + 1 ≤ mc then
      wrapAux mc gs (cur ++ [w]) (curLen + w.length + 1) ws
    else
      wrapAux mc (if cur = [] then gs else gs ++ [cur]) [w] w.length ws

/-- The word groups of the wrapped text, one group per output line. -/
def wrapGroups (ws : List (List Char)) (mc : ℕ) : List (List (List Char)) :=
  wrapAux mc [] [] 0 ws

/-- The output lines of the wrap loop: each group joined with single spaces. -/
def wrapLines (ws : List (List Char)) (mc : ℕ) : List (List Char) :=
  (wrapGroups ws mc).map (joinSep [' '])

/-- `_wrap_text(text, max_chars)`: texts of length at most `max_chars` are
returned unchanged, otherwise the greedy loop runs and the lines are joined
with newlines. -/
def wrapText (text : List Char) (mc : ℕ) : List Char :=
  if text.length ≤ mc then text
  else joinSep ['\n'] (wrapLines (pySplit text) mc)

/-- The line decomposition of `_wrap_text`'s result: the single unchanged line
in the short-circuit case, otherwise the greedy lines. -/
def linesOf (text : List Char) (mc : ℕ) : List (List Char) :=
  if text.length ≤ mc then [text] else wrapLines (pySplit text) mc

/-- Specification-side greedy wrapper, following the spec wording: accumulate
words into the current line while `current_length + len(word) + 1 <= max_chars`,
otherwise flush the current line and start a new one with that word. -/
def greedySpecAux (mc : ℕ) : List (List Char) → ℕ → List (List Char) → List (List Char)
  | cur, _, [] => if cur = [] then [] else [joinSep [' '] cur]
  | cur, curLen, w :: ws =>
    if curLen + w.length + 1 ≤ mc then greedySpecAux mc (cur ++ [w]) (curLen + w.length + 1) ws
    else (if cur = [] then [] else [joinSep [' '] cur]) ++ greedySpecAux mc [w] w.length ws

/-- Specification-side greedy wrap of a word list. -/
def greedyLinesSpec (mc : ℕ) (ws : List (List Char)) : List (List Char) :=
  greedySpecAux mc [] 0 ws

/-- The dummy borehole data of the source file (`DUMMY_BOREHOLE_DATA`). -/
def dummyData : List Stratum :=
  [⟨0, 0.5, "101", "Dark brown silty TOPSOIL with roots"⟩,
   ⟨0.5, 2, "102", "Brown MADE GROUND with brick fragments"⟩,
   ⟨2, 4.5, "201", "Firm brown CLAY, slightly silty"⟩,
   ⟨4.5, 7, "401", "Medium dense fine SAND, some gravel"⟩,
   ⟨7, 10, "504", "Dense sandy GRAVEL, occasional cobbles"⟩,
   ⟨10, 15, "801", "Weathered MUDSTONE, grey, fissured"⟩]

/-- Contiguous valid data whose last interval ends within `1e-6` past the page-1
boundary: `[0, 7]`, `[7, 10 + 1/2000000]`. -/
def ceData : List Stratum :=
  [⟨0, 7, "201", "CLAY"⟩, ⟨7, 10 + 1 / 2000000, "401", "SAND"⟩]

/-- The text `ab␣␣cd` (double space), length 6. -/
def ex9 : List Char := ['a', 'b', ' ', ' ', 'c', 'd']

/-- A sample description text from the source data. -/
def exText : List Char := ("Dense sandy GRAVEL, occasional cobbles").toList

/-! ## Basic page and depth lemmas -/

lemma pageTop_nonneg (p : ℕ) : 0 ≤ pageTop p := Nat.cast_nonneg _

lemma pageBot_succ_eq_pageTop (p : ℕ) : pageTop (p + 1) = pageBot p := rfl

lemma pageBot_eq (p : ℕ) (hp : 1 ≤ p) : pageBot p = pageTop p + 10 := by
  unfold pageTop pageBot
  rw [show 10 * p = 10 * (p - 1) + 10 by omega]
  push_cast
  ring

lemma pageTop_le_pageBot (p : ℕ) : pageTop p ≤ pageBot p := by
  unfold pageTop pageBot
  have : 10 * (p - 1) ≤ 10 * p := by omega
  exact_mod_cast this

lemma le_foldl_max (l : List Stratum) (acc : ℚ) :
    acc ≤ l.foldl (fun m r => max m r.base) acc := by
  induction l generalizing acc with
  | nil => exact le_refl _
  | cons a l ih => exact le_trans (le_max_left _ _) (ih _)

lemma base_le_foldl_max (l : List Stratum) (acc : ℚ) (r : Stratum) (hr : r ∈ l) :
    r.base ≤ l.foldl (fun m r => max m r.base) acc := by
  induction l generalizing acc with
  | nil => cases hr
  | cons a l ih =>
    rcases List.mem_cons.mp hr with h | h
    · subst h
      exact le_trans (le_max_right _ _) (le_foldl_max _ _)
    · exact ih _ h

lemma logDepth_nonneg (data : List Stratum) : 0 ≤ logDepth data := le_foldl_max data 0

lemma base_le_logDepth (data : List Stratum) (r : Stratum) (hr : r ∈ data) :
    r.base ≤ logDepth data := base_le_foldl_max data 0 r hr

lemma foldl_max_attained (l : List Stratum) (acc : ℚ) :
    l.foldl (fun m r => max m r.base) acc = acc ∨
      ∃ r ∈ l, l.foldl (fun m r => max m r.base) acc = r.base := by
  induction l generalizing acc with
  | nil => exact Or.inl rfl
  | cons a l ih =>
    rcases ih (max acc a.base) with h | ⟨r, hr, h⟩
    · rcases max_choice acc a.base with hm | hm
      · exact Or.inl (by simpa [List.foldl_cons, hm] using h)
      · exact Or.inr ⟨a, List.mem_cons_self .., by simpa [List.foldl_cons, hm] using h⟩
    · exact Or.inr ⟨r, List.mem_cons_of_mem _ hr, h⟩

lemma logDepth_attained (data : List Stratum) (hne : data ≠ [])
    (hv : ∀ r ∈ data, ValidRow r) : ∃ r ∈ data, r.base = logDepth data := by
  rcases foldl_max_attained data 0 with h | ⟨r, hr, h⟩
  · rcases data with _ | ⟨a, l⟩
    · exact absurd rfl hne
    · exfalso
      have h1 : a.base ≤ logDepth (a :: l) := base_le_logDepth _ a (List.mem_cons_self ..)
      have h2 := (hv a (List.mem_cons_self ..)).1
      have h3 := (hv a (List.mem_cons_self ..)).2
      have : logDepth (a :: l) = 0 := h
      linarith
  · exact ⟨r, hr, h.symm⟩

lemma logDepth_pos (data : List Stratum) (hne : data ≠ [])
    (hv : ∀ r ∈ data, ValidRow r) : 0 < logDepth data := by
  obtain ⟨r, hr, h⟩ := logDepth_attained data hne hv
  have h1 := (hv r hr).1
  have h2 := (hv r hr).2
  linarith [h ▸ lt_of_le_of_lt h1 h2]

lemma logDepth_le_pageCount (data : List Stratum) :
    logDepth data ≤ 10 * (pageCount data : ℚ) := by
  have h0 : (0 : ℚ) ≤ logDepth data / 10 := div_nonneg (logDepth_nonneg data) (by norm_num)
  have hc : (0 : ℤ) ≤ ⌈logDepth data / 10⌉ := Int.ceil_nonneg h0
  have hcast : ((pageCount data : ℕ) : ℚ) = ((⌈logDepth data / 10⌉ : ℤ) : ℚ) := by
    unfold pageCount
    exact_mod_cast congrArg (fun z : ℤ => (z : ℚ)) (Int.toNat_of_nonneg hc)
  have hle : logDepth data / 10 ≤ ((⌈logDepth data / 10⌉ : ℤ) : ℚ) := Int.le_ceil _
  rw [hcast]
  linarith

lemma pageTop_lt_logDepth (data : List Stratum) (p : ℕ) (hp1 : 1 ≤ p)
    (hp2 : p ≤ pageCount data) :
    pageTop p < logDepth data := by
  have h0 : (0 : ℚ) ≤ logDepth data / 10 := div_nonneg (logDepth_nonneg data) (by norm_num)
  have hc : (0 : ℤ) ≤ ⌈logDepth data / 10⌉ := Int.ceil_nonneg h0
  have hzp : (p : ℤ) ≤ ⌈logDepth data / 10⌉ := by
    have : (p : ℤ) ≤ ((pageCount data : ℕ) : ℤ) := by exact_mod_cast hp2
    rwa [show ((pageCount data : ℕ) : ℤ) = ⌈logDepth data / 10⌉ by
      unfold pageCount; exact Int.toNat_of_nonneg hc] at this
  have hlt : ((⌈logDepth data / 10⌉ : ℤ) : ℚ) < logDepth data / 10 + 1 := Int.ceil_lt_add_one _
  have hpq : (p : ℚ) ≤ ((⌈logDepth data / 10⌉ : ℤ) : ℚ) := by exact_mod_cast hzp
  have : pageTop p = 10 * ((p : ℚ) - 1) := by
    unfold pageTop
    push_cast [Nat.cast_sub hp1]
    ring
  rw [this]
  nlinarith

/-! ## Clipping lemmas -/

lemma clipAux_idx_ge (p : ℕ) (data : List Stratum) :
    ∀ (n : ℕ) (s : Seg), s ∈ clipAux p n data → n ≤ s.origIdx := by
  induction data with
  | nil => intro n s hs; simp [clipAux] at hs
  | cons r rest ih =>
    intro n s hs
    unfold clipAux at hs
    split at hs
    · exact le_trans (Nat.le_succ n) (ih (n + 1) s hs)
    · rcases List.mem_cons.mp hs with h | h
      · subst h; exact le_refl _
      · exact le_trans (Nat.le_succ n) (ih (n + 1) s h)

lemma mem_clipAux_spec (p : ℕ) (data : List Stratum) :
    ∀ (n : ℕ) (s : Seg), s ∈ clipAux p n data →
      ∃ r ∈ data, (pageTop p < r.base ∧ r.top < pageBot p) ∧
        s.top = max r.top (pageTop p) ∧ s.base = min r.base (pageBot p) ∧
        s.origTop = r.top ∧ s.origBase = r.base := by
  induction data with
  | nil => intro n s hs; simp [clipAux] at hs
  | cons r rest ih =>
    intro n s hs
    unfold clipAux at hs
    split at hs
    · obtain ⟨b, hb, h⟩ := ih (n + 1) s hs
      exact ⟨b, List.mem_cons_of_mem _ hb, h⟩
    · next hsel =>
      push_neg at hsel
      rcases List.mem_cons.mp hs with h | h
      · subst h
        exact ⟨r, List.mem_cons_self .., ⟨hsel.1, hsel.2⟩, rfl, rfl, rfl, rfl⟩
      · obtain ⟨b, hb, hrest⟩ := ih (n + 1) s h
        exact ⟨b, List.mem_cons_of_mem _ hb, hrest⟩

lemma clipAux_mem_of (p : ℕ) (data : List Stratum) (r : Stratum) (hr : r ∈ data)
    (h1 : pageTop p < r.base) (h2 : r.top < pageBot p) :
    ∀ n : ℕ, ∃ s ∈ clipAux p n data,
      s.top = max r.top (pageTop p) ∧ s.base = min r.base (pageBot p) ∧
      s.origTop = r.top ∧ s.origBase = r.base := by
  induction data with
  | nil => cases hr
  | cons a rest ih =>
    intro n
    rcases List.mem_cons.mp hr with h | h
    · subst h
      have hguard : ¬(r.base ≤ pageTop p ∨ pageBot p ≤ r.top) := by
        push_neg
        exact ⟨h1, h2⟩
      refine ⟨clipRow p n r, ?_, rfl, rfl, rfl, rfl⟩
      unfold clipAux
      rw [if_neg hguard]
      exact List.mem_cons_self ..
    · obtain ⟨s, hs, hfields⟩ := ih h (n + 1)
      refine ⟨s, ?_, hfields⟩
      unfold clipAux
      split
      · exact hs
      · exact List.mem_cons_of_mem _ hs

lemma clipAux_filter_idx (p : ℕ) (data : List Stratum) :
    ∀ (n k : ℕ) (hk : k < data.length),
      (clipAux p n data).filter (fun s => decide (s.origIdx = n + k)) =
        if pageTop p < (data.get ⟨k, hk⟩).base ∧ (data.get ⟨k, hk⟩).top < pageBot p
        then [clipRow p (n + k) (data.get ⟨k, hk⟩)] else [] := by
  induction data with
  | nil => intro n k hk; simp at hk
  | cons r rest ih =>
    intro n k hk
    cases k with
    | zero =>
      have hnil : (clipAux p (n + 1) rest).filter (fun s => decide (s.origIdx = n + 0)) = [] := by
        rw [List.filter_eq_nil_iff]
        intro s hs
        have := clipAux_idx_ge p rest (n + 1) s hs
        simp only [decide_eq_true_eq]
        omega
      unfold clipAux
      split
      · next hguard =>
        rw [hnil]
        rw [if_neg]
        intro hsel
        rcases hguard with hg | hg
        · exact absurd hsel.1 (not_lt.mpr (by simpa using hg))
        · exact absurd hsel.2 (not_lt.mpr (by simpa using hg))
      · next hguard =>
        push_neg at hguard
        have hsel : pageTop p < ((r :: rest).get ⟨0, hk⟩).base ∧
            ((r :: rest).get ⟨0, hk⟩).top < pageBot p := ⟨hguard.1, hguard.2⟩
        rw [List.filter_cons_of_pos (by simp [clipRow]), hnil, if_pos hsel]
        simp
    | succ k' =>
      have hk' : k' < rest.length := by simpa using hk
      have hrw : n + (k' + 1) = (n + 1) + k' := by omega
      have hget : (r :: rest).get ⟨k' + 1, hk⟩ = rest.get ⟨k', hk'⟩ := rfl
      unfold clipAux
      split
      · rw [hget, hrw]
        exact ih (n + 1) k' hk'
      · rw [List.filter_cons_of_neg (by simp [clipRow]), hget, hrw]
        exact ih (n + 1) k' hk'

lemma span_clamp (t b x y : ℚ) (htb : t < b) (hxy : x ≤ y) :
    (if x < b ∧ t < y then min b y - max t x else 0) =
      min b (max t y) - min b (max t x) := by
  split_ifs with h
  · rw [max_eq_right h.2.le]
    have hx : max t x < b := max_lt htb h.1
    rw [min_eq_right hx.le]
  · push_neg at h
    rcases le_or_lt b x with hbx | hxb
    · have hby : b ≤ y := le_trans hbx hxy
      rw [min_eq_left (le_trans hby (le_max_right t y)),
        min_eq_left (le_trans hbx (le_max_right t x)), sub_self]
    · have hyt : y ≤ t := h hxb
      rw [max_eq_left hyt, max_eq_left (hxy.trans hyt), sub_self]

lemma spanSum_succ_eq (data : List Stratum) (k : ℕ) (hk : k < data.length)
    (hv : ValidRow (data.get ⟨k, hk⟩)) (p : ℕ) :
    spanSum data (p + 1) k =
      min (data.get ⟨k, hk⟩).base (max (data.get ⟨k, hk⟩).top (pageBot (p + 1))) -
      min (data.get ⟨k, hk⟩).base (max (data.get ⟨k, hk⟩).top (pageBot p)) := by
  have hfilter := clipAux_filter_idx (p + 1) data 0 k hk
  rw [Nat.zero_add] at hfilter
  unfold spanSum clipPage
  rw [hfilter, show pageBot p = pageTop (p + 1) from rfl]
  have hspan := span_clamp (data.get ⟨k, hk⟩).top (data.get ⟨k, hk⟩).base
    (pageTop (p + 1)) (pageBot (p + 1)) hv.2 (pageTop_le_pageBot (p + 1))
  rw [← hspan]
  split_ifs with h
  · simp [clipRow]
  · simp

lemma wf_pairwise (data : List Stratum) (h : WellFormed data) :
    data.Pairwise (fun a b => a.base ≤ b.top) := by
  obtain ⟨hv, hch⟩ := h
  induction data with
  | nil => exact List.Pairwise.nil
  | cons a l ih =>
    have hvl : ∀ r ∈ l, ValidRow r := fun r hr => hv r (List.mem_cons_of_mem _ hr)
    have hchl : l.Chain' (fun a b => a.base = b.top) := hch.tail
    have hpl := ih hvl hchl
    refine List.Pairwise.cons ?_ hpl
    intro b hb
    cases l with
    | nil => cases hb
    | cons c l' =>
      have hac : a.base = c.top := List.chain'_cons.mp hch |>.1
      rcases List.mem_cons.mp hb with h | h
      · exact le_of_eq (h ▸ hac)
      · have hcb : c.base ≤ b.top := (List.pairwise_cons.mp hpl).1 b h
        have hcv : ValidRow c := hv c (List.mem_cons_of_mem _ (List.mem_cons_self ..))
        linarith [hcv.2, hac ▸ le_refl a.base]

lemma clip_pairwise (p : ℕ) (data : List Stratum) (hv : ∀ r ∈ data, ValidRow r)
    (hpw : data.Pairwise (fun a b => a.base ≤ b.top)) :
    ∀ n : ℕ, (clipAux p n data).Pairwise (fun s t => s.top < t.top ∧ s.base ≤ t.top) := by
  induction data with
  | nil => intro n; simp [clipAux]
  | cons r rest ih =>
    intro n
    have hvr : ValidRow r := hv r (List.mem_cons_self ..)
    have hvrest : ∀ b ∈ rest, ValidRow b := fun b hb => hv b (List.mem_cons_of_mem _ hb)
    obtain ⟨hhead, htailpw⟩ := List.pairwise_cons.mp hpw
    unfold clipAux
    split
    · exact ih hvrest htailpw (n + 1)
    · next hguard =>
      push_neg at hguard
      refine List.Pairwise.cons ?_ (ih hvrest htailpw (n + 1))
      intro t ht
      obtain ⟨b, hb, hbsel, htop, hbase, _, _⟩ := mem_clipAux_spec p rest (n + 1) t ht
      have hrb : r.base ≤ b.top := hhead b hb
      have hptb : pageTop p < b.top := lt_of_lt_of_le hguard.1 hrb
      have httop : t.top = b.top := by rw [htop, max_eq_left hptb.le]
      constructor
      · rw [httop]
        show max r.top (pageTop p) < b.top
        exact max_lt (lt_of_lt_of_le hvr.2 hrb) hptb
      · rw [httop]
        show min r.base (pageBot p) ≤ b.top
        exact le_trans (min_le_left _ _) hrb

/-- C1: for every contiguous, sorted, valid interval list, the clipped segments
across the generated pages exactly reconstruct the intervals: for each source
interval the clipped spans sum to `base_depth - top_depth`, and on every page
the segments cover no depth point twice (each segment ends before the next
begins). -/
theorem spec_C1 (data : List Stratum) (h : WellFormed data) :
    (∀ (i : ℕ) (r : Stratum), data.get? i = some r →
      ∑ p ∈ Finset.range (pageCount data), spanSum data (p + 1) i = r.base - r.top) ∧
    (∀ p : ℕ, 1 ≤ p → p ≤ pageCount data →
      (clipPage data p).Pairwise (fun s t => s.base ≤ t.top)) := by
  constructor
  · intro i r hr
    obtain ⟨hi, hget⟩ := List.get?_eq_some.mp hr
    have hv : ValidRow r := h.1 r (hget ▸ List.get_mem data _ _)
    have hmem : r ∈ data := hget ▸ List.get_mem data _ _
    have hsum : ∀ p ∈ Finset.range (pageCount data),
        spanSum data (p + 1) i =
          (fun q => min r.base (max r.top (pageBot q))) (p + 1) -
          (fun q => min r.base (max r.top (pageBot q))) p := by
      intro p _
      have := spanSum_succ_eq data i hi (hget ▸ hv) p
      rw [hget] at this
      simpa using this
    rw [Finset.sum_congr rfl hsum, Finset.sum_range_sub (fun q => min r.base (max r.top (pageBot q)))]
    have hb10 : r.base ≤ pageBot (pageCount data) := by
      have h1 : r.base ≤ logDepth data := base_le_logDepth data r hmem
      have h2 : logDepth data ≤ 10 * (pageCount data : ℚ) := logDepth_le_pageCount data
      have h3 : pageBot (pageCount data) = 10 * (pageCount data : ℚ) := by
        unfold pageBot; push_cast; ring
      linarith
    have hcN : min r.base (max r.top (pageBot (pageCount data))) = r.base :=
      min_eq_left (le_trans hb10 (le_max_right _ _))
    have hc0 : min r.base (max r.top (pageBot 0)) = r.top := by
      have : pageBot 0 = 0 := by unfold pageBot; norm_num
      rw [this, max_eq_left hv.1, min_eq_right hv.2.le]
    rw [hcN, hc0]
  · intro p _ _
    exact (clip_pairwise p data h.1 (wf_pairwise data h) 0).imp (fun hst => hst.2)

/-- C2: for every well-formed interval list, page, and interval, the page's
segment list contains exactly one segment for that interval iff
`base_depth > page.depth_top` and `top_depth < page.depth_bottom` (strict, so a
zero-height overlap yields no segment); that segment is clipped with
`depth_top = max(top_depth, page.depth_top)` and
`depth_bottom = min(base_depth, page.depth_bottom)`; and the page's segments
are strictly ordered by `depth_top` and never overlap. -/
theorem spec_C2 (data : List Stratum) (h : WellFormed data) (p : ℕ)
    (hp1 : 1 ≤ p) (hp2 : p ≤ pageCount data) (i : ℕ) (r : Stratum)
    (hr : data.get? i = some r) :
    ((∃! s, s ∈ clipPage data p ∧ s.origIdx = i) ↔
      (pageTop p < r.base ∧ r.top < pageBot p)) ∧
    (∀ s ∈ clipPage data p, s.origIdx = i →
      s.top = max r.top (pageTop p) ∧ s.base = min r.base (pageBot p)) ∧
    (clipPage data p).Pairwise (fun s t => s.top < t.top ∧ s.base ≤ t.top) := by
  obtain ⟨hi, hget⟩ := List.get?_eq_some.mp hr
  have hfilter := clipAux_filter_idx p data 0 i hi
  rw [Nat.zero_add, hget] at hfilter
  have hmemF : ∀ s : Seg, s ∈ clipPage data p ∧ s.origIdx = i ↔
      s ∈ (clipPage data p).filter (fun s => decide (s.origIdx = i)) := by
    intro s
    rw [List.mem_filter]
    simp
  refine ⟨?_, ?_, ?_⟩
  · constructor
    · rintro ⟨s, hs, -⟩
      by_contra hsel
      rw [if_neg hsel] at hfilter
      have := (hmemF s).mp hs
      rw [show (clipPage data p).filter (fun s => decide (s.origIdx = i)) =
        (clipAux p 0 data).filter (fun s => decide (s.origIdx = i)) from rfl, hfilter] at this
      cases this
    · intro hsel
      rw [if_pos hsel] at hfilter
      refine ⟨clipRow p i r, ?_, ?_⟩
      · show clipRow p i r ∈ clipPage data p ∧ (clipRow p i r).origIdx = i
        refine (hmemF (clipRow p i r)).mpr ?_
        show _ ∈ (clipAux p 0 data).filter _
        rw [hfilter]
        exact List.mem_cons_self ..
      · intro s' hs'
        have := (hmemF s').mp hs'
        rw [show (clipPage data p).filter (fun s => decide (s.origIdx = i)) =
          (clipAux p 0 data).filter (fun s => decide (s.origIdx = i)) from rfl, hfilter] at this
        simpa using this
  · intro s hs hidx
    have hmem := (hmemF s).mp ⟨hs, hidx⟩
    rw [show (clipPage data p).filter (fun s => decide (s.origIdx = i)) =
      (clipAux p 0 data).filter (fun s => decide (s.origIdx = i)) from rfl, hfilter] at hmem
    split_ifs at hmem with hsel
    · have : s = clipRow p i r := by simpa using hmem
      rw [this]
      exact ⟨rfl, rfl⟩
    · cases hmem
  · exact clip_pairwise p data h.1 (wf_pairwise data h) 0

/-- C3: for every non-empty valid interval list, the number of pages is
`ceil(max base_depth / 10)`, pages are generated contiguously from 1 to that
count, an exact multiple of the page span gives exactly `depth / 10` pages,
and there is no trailing empty page (the last page holds a segment). -/
theorem spec_C3 (data : List Stratum) (h : WellFormed data) (hne : data ≠ []) :
    pageCount data = (⌈logDepth data / 10⌉).toNat ∧
    pageNums data = List.range' 1 (pageCount data) ∧
    (∀ k : ℕ, logDepth data = 10 * k → pageCount data = k) ∧
    clipPage data (pageCount data) ≠ [] := by
  refine ⟨rfl, rfl, ?_, ?_⟩
  · intro k hk
    unfold pageCount
    rw [hk]
    rw [show (10 * (k : ℚ)) / 10 = (k : ℚ) by ring]
    rw [Int.ceil_natCast]
    exact Int.toNat_natCast k
  · obtain ⟨r, hr, hbase⟩ := logDepth_attained data hne h.1
    have hvr := h.1 r hr
    have hpos : 0 < logDepth data := logDepth_pos data hne h.1
    have hN1 : 1 ≤ pageCount data := by
      by_contra hc
      push_neg at hc
      interval_cases hN : pageCount data
      · have := logDepth_le_pageCount data
        rw [hN] at this
        push_cast at this
        linarith
    have h1 : pageTop (pageCount data) < r.base := by
      rw [hbase]
      exact pageTop_lt_logDepth data (pageCount data) hN1 (le_refl _)
    have h2 : r.top < pageBot (pageCount data) := by
      have hb : r.base ≤ 10 * ((pageCount data : ℕ) : ℚ) := by
        rw [hbase]
        exact logDepth_le_pageCount data
      have : pageBot (pageCount data) = 10 * ((pageCount data : ℕ) : ℚ) := by
        unfold pageBot; push_cast; ring
      linarith [hvr.2]
    obtain ⟨s, hs, -⟩ := clipAux_mem_of (pageCount data) data r hr h1 h2 0
    intro hnil
    rw [show clipPage data (pageCount data) = clipAux (pageCount data) 0 data from rfl] at hnil
    rw [hnil] at hs
    cases hs

lemma eps_pos : (0 : ℚ) < eps := by norm_num [eps]

lemma eps_lt_ten : eps < (10 : ℚ) := by norm_num [eps]

lemma pageTop_zero_or_ge_ten (p : ℕ) : pageTop p = 0 ∨ (10 : ℚ) ≤ pageTop p := by
  unfold pageTop
  rcases Nat.eq_zero_or_pos (p - 1) with h | h
  · left
    rw [h]
    norm_num
  · right
    have : 10 ≤ 10 * (p - 1) := by omega
    exact_mod_cast this

/-- C4 (amended): for every segment of a well-formed borehole, the top
depth/level label is drawn iff the segment's top coincides with the source
interval's top within epsilon `1e-6` and that top depth is positive, and the
base label is drawn iff the segment's base coincides with the source
interval's base within epsilon; moreover, for an interval split by a page
boundary, no base label is drawn on the earlier page and no top label on the
later page, provided the true boundary lies at least epsilon away from the
page boundary (an interval boundary strictly inside but within epsilon of the
page boundary is classified as a true boundary and its label is drawn). -/
theorem spec_C4 (data : List Stratum) (h : WellFormed data) (p : ℕ) (s : Seg)
    (hs : s ∈ clipPage data p) :
    (showTopLabel s = true ↔ (|s.top - s.origTop| < eps ∧ 0 < s.origTop)) ∧
    (showBaseLabel s = true ↔ |s.base - s.origBase| < eps) ∧
    (pageBot p + eps ≤ s.origBase → showBaseLabel s = false) ∧
    (s.origTop + eps ≤ pageTop p → showTopLabel s = false) := by
  obtain ⟨r, hr, hsel, htop, hbase, hot, hob⟩ := mem_clipAux_spec p data 0 s hs
  have hvr := h.1 r hr
  refine ⟨?_, ?_, ?_, ?_⟩
  · simp only [showTopLabel, isTrueTop, Bool.and_eq_true, decide_eq_true_eq]
    constructor
    · rintro ⟨h1, h2⟩
      refine ⟨h1, ?_⟩
      rw [hot]
      by_contra hc
      push_neg at hc
      have hrt : r.top = 0 := le_antisymm hc hvr.1
      have hstop : s.top = pageTop p := by
        rw [htop, hrt]
        exact max_eq_right (pageTop_nonneg p)
      rcases pageTop_zero_or_ge_ten p with hp0 | hp10
      · rw [hstop, hp0] at h2
        exact lt_irrefl 0 h2
      · rw [hot, hrt, sub_zero] at h1
        have : s.top < eps := lt_of_abs_lt h1
        rw [hstop] at this
        linarith [eps_lt_ten]
    · rintro ⟨h1, h2⟩
      refine ⟨h1, ?_⟩
      rw [hot] at h2
      rw [htop]
      exact lt_of_lt_of_le h2 (le_max_left _ _)
  · simp [showBaseLabel, isTrueBottom]
  · intro hge
    rw [hob] at hge
    have hsb : s.base = pageBot p := by
      rw [hbase]
      exact min_eq_right (by linarith [eps_pos])
    simp only [showBaseLabel, isTrueBottom, decide_eq_false_iff_not]
    rw [hsb, hob]
    intro habs
    have : r.base - pageBot p < eps := by
      have := abs_sub_comm (pageBot p) r.base ▸ habs
      exact lt_of_abs_lt this
    linarith
  · intro hle
    rw [hot] at hle
    have hst : s.top = pageTop p := by
      rw [htop]
      exact max_eq_right (by linarith [eps_pos])
    have hfalse : ¬(|s.top - s.origTop| < eps) := by
      rw [hst, hot]
      intro habs
      have : pageTop p - r.top < eps := lt_of_abs_lt habs
      linarith
    simp [showTopLabel, isTrueTop, hfalse]

/-- Refutation of C4 as stated: with contiguous valid data `[0,7]`,
`[7, 10 + 1/2000000]`, the second interval is split by the page-1 boundary at
depth 10 (its true base lies strictly below the page bottom), yet the base
label IS drawn on page 1, because the true base is within epsilon of the page
boundary. -/
theorem spec_C4_counterexample :
    WellFormed ceData ∧
    clipPage ceData 1 =
      [⟨0, 0, 7, "201", "CLAY", 0, 7⟩,
       ⟨1, 7, 10, "401", "SAND", 7, 10 + 1 / 2000000⟩] ∧
    pageBot 1 < (10 + 1 / 2000000 : ℚ) ∧
    showBaseLabel ⟨1, 7, 10, "401", "SAND", 7, 10 + 1 / 2000000⟩ = true ∧
    (clipPage ceData 2).length = 1 := by
  refine ⟨⟨?_, ?_⟩, ?_, ?_, ?_, ?_⟩
  · intro r hr
    simp only [ceData, List.mem_cons, List.not_mem_nil, or_false] at hr
    rcases hr with h | h <;> (subst h; constructor <;> norm_num)
  · simp only [ceData]
    rw [List.chain'_cons]
    exact ⟨rfl, List.chain'_singleton _⟩
  · simp only [clipPage, clipAux, ceData, clipRow, pageTop, pageBot]
    norm_num [min_def, max_def]
  · simp only [pageBot]
    norm_num
  · simp only [showBaseLabel, isTrueBottom, eps, decide_eq_true_eq]
    rw [abs_lt]
    constructor <;> norm_num
  · simp only [clipPage, clipAux, ceData, clipRow, pageTop, pageBot]
    norm_num

/-- C5: on every generated page that strictly contains the borehole's true end,
bars are clamped so they never extend below the end's mapped y, the description
anchor is the midpoint of the clipped visible span (and differs from the
unclipped midpoint whenever clipping actually occurred), and the closing line
is drawn at the end's mapped y; on every other generated page the closing line
is drawn at the fixed `bottom_line_y`. -/
theorem spec_C5 (data : List Stratum) (p : ℕ) (h : WellFormed data)
    (hp1 : 1 ≤ p) (hp2 : p ≤ pageCount data) :
    (logDepth data < pageBot p →
      closingLineY data p = depthToY (pageTop p) (logDepth data) ∧
      ∀ b ∈ pageBars data p,
        depthToY (pageTop p) (logDepth data) ≤ b.yBot ∧
        b.textY = (b.yTop + b.yBot) / 2 ∧
        (b.yBaseRaw < b.yBot → b.textY ≠ (b.yTop + b.yBaseRaw) / 2)) ∧
    (pageBot p ≤ logDepth data → closingLineY data p = bottomLineY) := by
  have hpb := pageBot_eq p hp1
  constructor
  · intro hlt
    have hlt' : logDepth data < pageTop p + 10 := by rw [← hpb]; exact hlt
    have hend : min (logDepth data) (pageTop p + 10) = logDepth data :=
      min_eq_left hlt'.le
    constructor
    · simp only [closingLineY, hend]
      rw [if_pos hlt']
    · intro b hb
      simp only [pageBars, List.mem_filterMap] at hb
      obtain ⟨s, hsmem, heq⟩ := hb
      rw [hend] at heq
      split_ifs at heq with hcond
      rw [Option.some_inj] at heq
      subst heq
      refine ⟨le_max_right _ _, rfl, ?_⟩
      intro hlt2 heq2
      simp only at hlt2 heq2
      linarith
  · intro hge
    have hge' : pageTop p + 10 ≤ logDepth data := by rw [← hpb]; exact hge
    have hend : min (logDepth data) (pageTop p + 10) = pageTop p + 10 :=
      min_eq_right hge'
    simp only [closingLineY, hend]
    rw [if_neg (lt_irrefl _)]

/-- C6: the per-page depth-to-y mapping sends the page top to 1 exactly, the
page top plus the 10-unit span to `bottom_line_y` exactly, is the stated affine
function, and maps the midpoint of any two depths to the mean of their images. -/
theorem spec_C6 (p : ℕ) (d a b : ℚ) :
    depthToY (pageTop p) (pageTop p) = 1 ∧
    depthToY (pageTop p) (pageTop p + 10) = bottomLineY ∧
    depthToY (pageTop p) d = 1 - (1 - bottomLineY) * ((d - pageTop p) / 10) ∧
    depthToY (pageTop p) ((a + b) / 2) =
      (depthToY (pageTop p) a + depthToY (pageTop p) b) / 2 := by
  refine ⟨by unfold depthToY; ring, by unfold depthToY; ring, rfl,
    by unfold depthToY; ring⟩

lemma pageTop_eq_markerStart (p : ℕ) : pageTop p = (markerStart p : ℚ) := rfl

lemma markerLen (p : ℕ) (hp : 1 ≤ p) : markerEnd p + 1 - markerStart p = 11 := by
  unfold markerStart markerEnd
  omega

lemma filter_flatMap_comm {α β : Type} (l : List α) (f : α → List β) (q : β → Bool) :
    (l.flatMap f).filter q = l.flatMap (fun a => (f a).filter q) := by
  induction l with
  | nil => simp
  | cons a l ih => simp [List.flatMap_cons, List.filter_append, ih]

lemma flatMap_eq_nil_of {α β : Type} (l : List α) (f : α → List β)
    (h : ∀ a ∈ l, f a = []) : l.flatMap f = [] := by
  induction l with
  | nil => simp
  | cons a l ih =>
    rw [List.flatMap_cons, h a (List.mem_cons_self ..), List.nil_append]
    exact ih (fun a ha => h a (List.mem_cons_of_mem _ ha))

lemma flatMap_eq_single {α β : Type} (l : List α) (f : α → List β) (k : α)
    (hnd : l.Nodup) (hk : k ∈ l) (hother : ∀ a ∈ l, a ≠ k → f a = []) :
    l.flatMap f = f k := by
  induction l with
  | nil => cases hk
  | cons a l ih =>
    rw [List.flatMap_cons]
    rcases List.mem_cons.mp hk with h | h
    · subst h
      rw [flatMap_eq_nil_of l f (fun b hb =>
        hother b (List.mem_cons_of_mem _ hb)
          (fun hbk => (List.nodup_cons.mp hnd).1 (hbk ▸ hb))), List.append_nil]
    · rw [hother a (List.mem_cons_self ..)
        (fun hak => (List.nodup_cons.mp hnd).1 (hak ▸ h)), List.nil_append]
      exact ih (List.nodup_cons.mp hnd).2 h
        (fun b hb => hother b (List.mem_cons_of_mem _ hb))

/-- C7: for every page, the ruler generator produces exactly 11 major ticks at
the absolute integer depths `10*(p-1) .. 10*p`, each labeled with the absolute
depth and placed at `depth_to_y` of its depth, and exactly 9 unlabeled minor
ticks strictly between each pair of consecutive major ticks, each placed at
`depth_to_y` of its depth. -/
theorem spec_C7 (p : ℕ) (hp : 1 ≤ p) :
    (majorTicks p).length = 11 ∧
    (majorTicks p).map MajorTick.depth = List.range' (10 * (p - 1)) 11 ∧
    (∀ t ∈ majorTicks p, t.label = t.depth ∧
      t.y = depthToY (pageTop p) (t.depth : ℚ)) ∧
    (minorTicks p).length = 90 ∧
    (∀ t ∈ minorTicks p, t.y = depthToY (pageTop p) t.depth) ∧
    (∀ k : ℕ, k < 10 →
      ((minorTicks p).filter (fun t =>
        decide (((10 * (p - 1) + k : ℕ) : ℚ) < t.depth ∧
          t.depth < ((10 * (p - 1) + k + 1 : ℕ) : ℚ)))).length = 9) := by
  have hdepth_iff : ∀ (k i sub : ℕ), k < 10 → 1 ≤ sub → sub ≤ 9 →
      ((((10 * (p - 1) + k : ℕ) : ℚ) < (markerStart p : ℚ) + (i : ℚ) + (sub : ℚ) / 10 ∧
        (markerStart p : ℚ) + (i : ℚ) + (sub : ℚ) / 10 <
          ((10 * (p - 1) + k + 1 : ℕ) : ℚ)) ↔ i = k) := by
    intro k i sub _ h1 h9
    have e1 : ((10 * (p - 1) + k : ℕ) : ℚ) = (markerStart p : ℚ) + (k : ℚ) := by
      simp only [markerStart]
      push_cast
      ring
    have e2 : ((10 * (p - 1) + k + 1 : ℕ) : ℚ) = (markerStart p : ℚ) + (k : ℚ) + 1 := by
      simp only [markerStart]
      push_cast
      ring
    have hq1 : (1 : ℚ) ≤ (sub : ℚ) := by exact_mod_cast h1
    have hq9 : (sub : ℚ) ≤ 9 := by exact_mod_cast h9
    rw [e1, e2]
    constructor
    · rintro ⟨hlow, hhigh⟩
      by_contra hik
      rcases Nat.lt_or_ge i k with hlt | hge
      · have hik1 : (i : ℚ) + 1 ≤ (k : ℚ) := by exact_mod_cast hlt
        linarith
      · have hgt : k < i := lt_of_le_of_ne hge (fun hx => hik hx.symm)
        have hik1 : (k : ℚ) + 1 ≤ (i : ℚ) := by exact_mod_cast hgt
        linarith
    · rintro rfl
      constructor <;> linarith
  refine ⟨?_, ?_, ?_, ?_, ?_, ?_⟩
  · simp [majorTicks, markerLen p hp]
  · rw [majorTicks, markerLen p hp, List.map_map]
    exact List.map_id' _
  · intro t ht
    rw [majorTicks] at ht
    obtain ⟨m, hm, rfl⟩ := List.mem_map.mp ht
    exact ⟨rfl, rfl⟩
  · rw [minorTicks, List.length_flatMap]
    simp only [Function.comp_def, List.length_map, List.length_range']
    decide
  · intro t ht
    rw [minorTicks] at ht
    obtain ⟨i, hi, hmem⟩ := List.mem_flatMap.mp ht
    obtain ⟨sub, hsub, rfl⟩ := List.mem_map.mp hmem
    show (1 : ℚ) - (1 - bottomLineY) * (((i : ℚ) + (sub : ℚ) / 10) / 10) =
      depthToY (pageTop p) ((markerStart p : ℚ) + (i : ℚ) + (sub : ℚ) / 10)
    rw [pageTop_eq_markerStart, depthToY]
    ring
  · intro k hk
    rw [minorTicks, filter_flatMap_comm, List.length_flatMap]
    have hsum : ∀ (n : ℕ) (g : ℕ → ℕ), k < n → (∀ i, g i = if i = k then 9 else 0) →
        ((List.range n).map g).sum = 9 := by
      intro n
      induction n with
      | zero => intro g h; omega
      | succ m ih =>
        intro g hkn hg
        rw [List.range_succ, List.map_append, List.sum_append]
        rcases Nat.lt_or_ge k m with hlt | hge
        · rw [ih g hlt hg]
          simp [hg m, Nat.ne_of_gt hlt]
        · have hkm : k = m := by omega
          have hzero : ((List.range m).map g).sum = 0 := by
            have hz : ∀ i ∈ List.range m, g i = 0 := by
              intro i hi
              rw [hg i, if_neg]
              have := List.mem_range.mp hi
              omega
            rw [List.map_congr_left hz]
            simp
          rw [hzero]
          simp [hg m, hkm]
    have hg : ∀ i : ℕ,
        ((List.map (fun (sub : ℕ) =>
            ({ depth := (markerStart p : ℚ) + (i : ℚ) + (sub : ℚ) / 10,
               y := 1 - (1 - bottomLineY) * (((i : ℚ) + (sub : ℚ) / 10) / 10) } : MinorTick))
          (List.range' 1 9)).filter (fun t =>
            decide (((10 * (p - 1) + k : ℕ) : ℚ) < t.depth ∧
              t.depth < ((10 * (p - 1) + k + 1 : ℕ) : ℚ)))).length =
          if i = k then 9 else 0 := by
      intro i
      by_cases hik : i = k
      · rw [if_pos hik]
        subst hik
        rw [List.filter_eq_self.mpr ?_]
        · simp
        · intro t htm
          obtain ⟨sub, hsub, rfl⟩ := List.mem_map.mp htm
          have hb := List.mem_range'_1.mp hsub
          exact decide_eq_true ((hdepth_iff i i sub hk (by omega) (by omega)).mpr rfl)
      · rw [if_neg hik]
        rw [List.filter_eq_nil_iff.mpr ?_]
        · rfl
        · intro t htm
          obtain ⟨sub, hsub, rfl⟩ := List.mem_map.mp htm
          have hb := List.mem_range'_1.mp hsub
          simp only [decide_eq_true_eq]
          intro hc
          exact hik ((hdepth_iff k i sub hk (by omega) (by omega)).mp hc)
    exact hsum 10 _ hk hg

/-! ## Text wrapper lemmas -/

lemma joinSep_singleton (sep w : List Char) : joinSep sep [w] = w := by
  simp [joinSep]

lemma joinSep_cons_ne (sep w : List Char) (ws : List (List Char)) (h : ws ≠ []) :
    joinSep sep (w :: ws) = w ++ sep ++ joinSep sep ws := by
  simp only [joinSep]
  rw [if_neg h]
  simp [List.append_assoc]

lemma joinSep_append (sep : List Char) (A B : List (List Char)) (hA : A ≠ []) (hB : B ≠ []) :
    joinSep sep (A ++ B) = joinSep sep A ++ sep ++ joinSep sep B := by
  induction A with
  | nil => exact absurd rfl hA
  | cons a A ih =>
    cases A with
    | nil =>
      rw [List.singleton_append, joinSep_cons_ne sep a B hB, joinSep_singleton]
    | cons a' A' =>
      rw [List.cons_append, joinSep_cons_ne sep a _ (by simp), ih (by simp),
        joinSep_cons_ne sep a _ (by simp)]
      simp [List.append_assoc]

lemma flatten_ne_nil (gs : List (List (List Char))) (hgs : gs ≠ [])
    (hne : ∀ g ∈ gs, g ≠ []) : gs.flatten ≠ [] := by
  cases gs with
  | nil => exact absurd rfl hgs
  | cons g gs' =>
    have hg := hne g (List.mem_cons_self ..)
    cases g with
    | nil => exact absurd rfl hg
    | cons w g' => simp

lemma joinSep_map_flatten (gs : List (List (List Char))) (hne : ∀ g ∈ gs, g ≠ []) :
    joinSep [' '] (gs.map (joinSep [' '])) = joinSep [' '] gs.flatten := by
  induction gs with
  | nil => rfl
  | cons g gs' ih =>
    have hg := hne g (List.mem_cons_self ..)
    have hne' : ∀ g' ∈ gs', g' ≠ [] := fun g' h => hne g' (List.mem_cons_of_mem _ h)
    cases gs' with
    | nil => simp [joinSep]
    | cons g1 gs'' =>
      have hflat : (g1 :: gs'').flatten ≠ [] := flatten_ne_nil _ (by simp) hne'
      have hmapne : (g1 :: gs'').map (joinSep [' ']) ≠ [] := by simp
      calc joinSep [' '] ((g :: g1 :: gs'').map (joinSep [' ']))
          = joinSep [' '] ([joinSep [' '] g] ++ (g1 :: gs'').map (joinSep [' '])) := rfl
        _ = joinSep [' '] g ++ [' '] ++ joinSep [' '] ((g1 :: gs'').map (joinSep [' '])) := by
            rw [joinSep_append [' '] _ _ (by simp) hmapne, joinSep_singleton]
        _ = joinSep [' '] g ++ [' '] ++ joinSep [' '] (g1 :: gs'').flatten := by
            rw [ih hne']
        _ = joinSep [' '] (g ++ (g1 :: gs'').flatten) := by
            rw [joinSep_append [' '] g _ hg hflat]
        _ = joinSep [' '] ((g :: g1 :: gs'').flatten) := by
            conv_rhs => rw [List.flatten_cons]

lemma pySplitAux_clean (s : List Char) :
    ∀ cur : List Char, (∀ c ∈ cur, isSpace c = false) →
      ∀ w ∈ pySplitAux s cur, w ≠ [] ∧ ∀ c ∈ w, isSpace c = false := by
  induction s with
  | nil =>
    intro cur hcur w hw
    unfold pySplitAux at hw
    split at hw
    · cases hw
    · next h =>
      rw [List.mem_singleton] at hw
      exact hw ▸ ⟨h, hcur⟩
  | cons c s ih =>
    intro cur hcur w hw
    unfold pySplitAux at hw
    split at hw
    · rw [List.mem_append] at hw
      rcases hw with hw | hw
      · split at hw
        · cases hw
        · next h =>
          rw [List.mem_singleton] at hw
          exact hw ▸ ⟨h, hcur⟩
      · exact ih [] (by simp) w hw
    · next hc =>
      refine ih (cur ++ [c]) ?_ w hw
      intro c' hc'
      rcases List.mem_append.mp hc' with h | h
      · exact hcur c' h
      · rw [List.mem_singleton] at h
        subst h
        exact Bool.not_eq_true _ ▸ hc

lemma pySplitAux_word_le (s : List Char) :
    ∀ (cur : List Char) (w : List Char), w ∈ pySplitAux s cur →
      w.length ≤ cur.length + s.length := by
  induction s with
  | nil =>
    intro cur w hw
    unfold pySplitAux at hw
    split at hw
    · cases hw
    · rw [List.mem_singleton] at hw
      simp [hw]
  | cons c s ih =>
    intro cur w hw
    unfold pySplitAux at hw
    split at hw
    · rw [List.mem_append] at hw
      rcases hw with hw | hw
      · split at hw
        · cases hw
        · rw [List.mem_singleton] at hw
          subst hw
          simp only [List.length_cons]
          omega
      · have := ih [] w hw
        simp only [List.length_nil, List.length_cons] at this ⊢
        omega
    · have := ih (cur ++ [c]) w hw
      simp only [List.length_append, List.length_cons, List.length_nil] at this ⊢
      omega

lemma pySplitAux_push (w : List Char) :
    ∀ (s cur : List Char), (∀ c ∈ w, isSpace c = false) →
      pySplitAux (w ++ s) cur = pySplitAux s (cur ++ w) := by
  induction w with
  | nil => intro s cur _; simp
  | cons c w ih =>
    intro s cur hclean
    have hc : isSpace c = false := hclean c (List.mem_cons_self ..)
    have hstep : pySplitAux (c :: w ++ s) cur =
        if isSpace c = true then (if cur = [] then [] else [cur]) ++ pySplitAux (w ++ s) []
        else pySplitAux (w ++ s) (cur ++ [c]) := rfl
    rw [hstep, if_neg (by rw [hc]; exact Bool.false_ne_true)]
    rw [ih s (cur ++ [c]) (fun c' h => hclean c' (List.mem_cons_of_mem _ h))]
    simp

lemma pySplit_joinSep (ws : List (List Char))
    (h : ∀ w ∈ ws, w ≠ [] ∧ ∀ c ∈ w, isSpace c = false) :
    pySplit (joinSep [' '] ws) = ws := by
  induction ws with
  | nil => rfl
  | cons w ws' ih =>
    obtain ⟨hne, hclean⟩ := h w (List.mem_cons_self ..)
    have h' : ∀ w' ∈ ws', w' ≠ [] ∧ ∀ c ∈ w', isSpace c = false :=
      fun w' hw' => h w' (List.mem_cons_of_mem _ hw')
    cases ws' with
    | nil =>
      show pySplitAux (joinSep [' '] [w]) [] = [w]
      rw [joinSep_singleton]
      rw [show w = w ++ ([] : List Char) by simp] at hclean ⊢
      rw [pySplitAux_push _ [] [] (by simpa using hclean)]
      simp only [List.nil_append, List.append_nil]
      unfold pySplitAux
      rw [if_neg (by simpa using hne)]
    | cons w1 ws'' =>
      show pySplitAux (joinSep [' '] (w :: w1 :: ws'')) [] = _
      rw [joinSep_cons_ne [' '] w _ (by simp)]
      rw [List.append_assoc, pySplitAux_push w (([' '] : List Char) ++ _) [] hclean]
      rw [List.nil_append, List.singleton_append]
      show pySplitAux (' ' :: joinSep [' '] (w1 :: ws'')) w = _
      unfold pySplitAux
      rw [if_pos (by norm_num [isSpace]), if_neg hne]
      rw [show pySplitAux (joinSep [' '] (w1 :: ws'')) [] = pySplit (joinSep [' '] (w1 :: ws'')) from rfl]
      rw [ih h']
      simp

lemma wrapAux_flatten (mc : ℕ) (ws : List (List Char)) :
    ∀ (gs : List (List (List Char))) (cur : List (List Char)) (curLen : ℕ),
      (wrapAux mc gs cur curLen ws).flatten = gs.flatten ++ cur ++ ws := by
  induction ws with
  | nil =>
    intro gs cur curLen
    unfold wrapAux
    split
    · next h => subst h; simp
    · simp
  | cons w ws ih =>
    intro gs cur curLen
    unfold wrapAux
    split
    · rw [ih]
      simp
    · rw [ih]
      split
      · next h => subst h; simp
      · simp

lemma wrapAux_mono (mc : ℕ) (ws : List (List Char)) :
    ∀ (gs : List (List (List Char))) (cur : List (List Char)) (curLen : ℕ)
      (g : List (List Char)), g ∈ gs → g ∈ wrapAux mc gs cur curLen ws := by
  induction ws with
  | nil =>
    intro gs cur curLen g hg
    unfold wrapAux
    split
    · exact hg
    · exact List.mem_append_left _ hg
  | cons w ws ih =>
    intro gs cur curLen g hg
    unfold wrapAux
    split
    · exact ih _ _ _ g hg
    · refine ih _ _ _ g ?_
      split
      · exact hg
      · exact List.mem_append_left _ hg

lemma wrapAux_stuck (mc : ℕ) (ws : List (List Char)) :
    ∀ (gs : List (List (List Char))) (cur : List (List Char)) (curLen : ℕ),
      cur ≠ [] → mc + 1 ≤ curLen → cur ∈ wrapAux mc gs cur curLen ws := by
  induction ws with
  | nil =>
    intro gs cur curLen hne _
    unfold wrapAux
    rw [if_neg hne]
    exact List.mem_append_right _ (List.mem_singleton_self _)
  | cons w ws ih =>
    intro gs cur curLen hne hlen
    unfold wrapAux
    rw [if_neg (by omega)]
    rw [if_neg hne]
    exact wrapAux_mono mc ws _ _ _ cur (List.mem_append_right _ (List.mem_singleton_self _))

lemma wrapAux_long_word (mc : ℕ) (ws : List (List Char)) :
    ∀ (gs : List (List (List Char))) (cur : List (List Char)) (curLen : ℕ)
      (w : List Char), w ∈ ws → mc < w.length → [w] ∈ wrapAux mc gs cur curLen ws := by
  induction ws with
  | nil => intro _ _ _ _ h; cases h
  | cons a ws ih =>
    intro gs cur curLen w hw hlong
    rcases List.mem_cons.mp hw with h | h
    · subst h
      unfold wrapAux
      rw [if_neg (by omega)]
      exact wrapAux_stuck mc ws _ [w] w.length (by simp) (by omega)
    · unfold wrapAux
      split
      · exact ih _ _ _ w h hlong
      · exact ih _ _ _ w h hlong

lemma wrapAux_groups_ok (mc : ℕ) (ws : List (List Char)) :
    ∀ (gs : List (List (List Char))) (cur : List (List Char)) (curLen : ℕ),
      (∀ g ∈ gs, g ≠ [] ∧ (2 ≤ g.length → (joinSep [' '] g).length ≤ mc)) →
      (joinSep [' '] cur).length ≤ curLen →
      (2 ≤ cur.length → (joinSep [' '] cur).length ≤ mc) →
      ∀ g ∈ wrapAux mc gs cur curLen ws,
        g ≠ [] ∧ (2 ≤ g.length → (joinSep [' '] g).length ≤ mc) := by
  induction ws with
  | nil =>
    intro gs cur curLen hgs hcur2 hcur3 g hg
    unfold wrapAux at hg
    split at hg
    · exact hgs g hg
    · next hne =>
      rcases List.mem_append.mp hg with h | h
      · exact hgs g h
      · rw [List.mem_singleton] at h
        exact h ▸ ⟨hne, hcur3⟩
  | cons w ws ih =>
    intro gs cur curLen hgs hcur2 hcur3 g hg
    unfold wrapAux at hg
    split at hg
    · next hfit =>
      refine ih gs (cur ++ [w]) (curLen + w.length + 1) hgs ?_ ?_ g hg
      · rcases eq_or_ne cur [] with hc | hc
        · subst hc
          rw [List.nil_append, joinSep_singleton]
          omega
        · rw [joinSep_append [' '] cur [w] hc (by simp), joinSep_singleton]
          simp only [List.length_append, List.length_cons, List.length_nil]
          omega
      · intro _
        rcases eq_or_ne cur [] with hc | hc
        · subst hc
          rw [List.nil_append, joinSep_singleton]
          omega
        · rw [joinSep_append [' '] cur [w] hc (by simp), joinSep_singleton]
          simp only [List.length_append, List.length_cons, List.length_nil]
          omega
    · refine ih _ [w] w.length ?_ ?_ ?_ g hg
      · intro g' hg'
        split at hg'
        · exact hgs g' hg'
        · next hne =>
          rcases List.mem_append.mp hg' with h | h
          · exact hgs g' h
          · rw [List.mem_singleton] at h
            exact h ▸ ⟨hne, hcur3⟩
      · rw [joinSep_singleton]
      · intro h2
        simp at h2

lemma wrapAux_map_joinSep (mc : ℕ) (ws : List (List Char)) :
    ∀ (gs : List (List (List Char))) (cur : List (List Char)) (curLen : ℕ),
      (wrapAux mc gs cur curLen ws).map (joinSep [' ']) =
        gs.map (joinSep [' ']) ++ greedySpecAux mc cur curLen ws := by
  induction ws with
  | nil =>
    intro gs cur curLen
    unfold wrapAux greedySpecAux
    split
    · next h => subst h; simp
    · simp
  | cons w ws ih =>
    intro gs cur curLen
    unfold wrapAux greedySpecAux
    split
    · exact ih _ _ _
    · rw [ih]
      split
      · next h => subst h; simp
      · simp [List.append_assoc]

lemma wrapLines_eq_spec (ws : List (List Char)) (mc : ℕ) :
    wrapLines ws mc = greedyLinesSpec mc ws := by
  unfold wrapLines wrapGroups greedyLinesSpec
  rw [wrapAux_map_joinSep]
  simp

lemma wrapGroups_flatten (ws : List (List Char)) (mc : ℕ) :
    (wrapGroups ws mc).flatten = ws := by
  unfold wrapGroups
  rw [wrapAux_flatten]
  simp

lemma wrapGroups_ok (ws : List (List Char)) (mc : ℕ) :
    ∀ g ∈ wrapGroups ws mc, g ≠ [] ∧ (2 ≤ g.length → (joinSep [' '] g).length ≤ mc) := by
  unfold wrapGroups
  exact wrapAux_groups_ok mc ws [] [] 0 (by simp) (by simp [joinSep]) (by simp)

lemma linesOf_short (t : List Char) (mc : ℕ) (h : t.length ≤ mc) :
    linesOf t mc = [t] := by
  unfold linesOf
  rw [if_pos h]

lemma linesOf_long (t : List Char) (mc : ℕ) (h : ¬t.length ≤ mc) :
    linesOf t mc = wrapLines (pySplit t) mc := by
  unfold linesOf
  rw [if_neg h]

/-- C8: the wrapper follows the greedy rule — words are accumulated while
`current_length + len(word) + 1 <= max_chars` and otherwise the line is flushed
and a new one starts with that word (proved by refinement against the
spec-side greedy recursion); a word longer than `max_chars` is placed alone on
its own line unsplit; and text of length at most `max_chars` is returned
unchanged as the single line. -/
theorem spec_C8 (text : List Char) (mc : ℕ) (hmc : 0 < mc) :
    (text.length ≤ mc → wrapText text mc = text ∧ linesOf text mc = [text]) ∧
    (mc < text.length →
      wrapText text mc = joinSep ['\n'] (greedyLinesSpec mc (pySplit text)) ∧
      linesOf text mc = greedyLinesSpec mc (pySplit text)) ∧
    (∀ w ∈ pySplit text, mc < w.length →
      [w] ∈ wrapGroups (pySplit text) mc ∧ w ∈ linesOf text mc) := by
  refine ⟨?_, ?_, ?_⟩
  · intro hle
    exact ⟨by unfold wrapText; rw [if_pos hle], linesOf_short text mc hle⟩
  · intro hgt
    have hnle : ¬text.length ≤ mc := not_le.mpr hgt
    constructor
    · unfold wrapText
      rw [if_neg hnle, wrapLines_eq_spec]
    · rw [linesOf_long text mc hnle, wrapLines_eq_spec]
  · intro w hw hlong
    have hwlen : w.length ≤ text.length := by
      have := pySplitAux_word_le text [] w hw
      simpa using this
    have hnle : ¬text.length ≤ mc := by omega
    have hgrp : [w] ∈ wrapGroups (pySplit text) mc :=
      wrapAux_long_word mc (pySplit text) [] [] 0 w hw hlong
    refine ⟨hgrp, ?_⟩
    rw [linesOf_long text mc hnle]
    unfold wrapLines
    rw [← joinSep_singleton [' '] w]
    exact List.mem_map_of_mem _ hgrp

/-- C9 (amended): rejoining the wrapped lines with single spaces and wrapping
again yields the same lines, provided the rejoined text is still longer than
`max_chars` or the first wrap produced a single line; when the rejoined text
fits within `max_chars` after a multi-line wrap, the second wrap returns it as
one line and the line breaks differ. -/
theorem spec_C9 (text : List Char) (mc : ℕ) (hmc : 0 < mc)
    (hside : mc < (joinSep [' '] (linesOf text mc)).length ∨
      (linesOf text mc).length = 1) :
    linesOf (joinSep [' '] (linesOf text mc)) mc = linesOf text mc := by
  by_cases hshort : text.length ≤ mc
  · have h1 : linesOf text mc = [text] := linesOf_short text mc hshort
    rw [h1, joinSep_singleton]
    exact linesOf_short text mc hshort
  · have h1 : linesOf text mc = wrapLines (pySplit text) mc :=
      linesOf_long text mc hshort
    have hclean := pySplitAux_clean text [] (by simp)
    have hne : ∀ g ∈ wrapGroups (pySplit text) mc, g ≠ [] :=
      fun g hg => (wrapGroups_ok (pySplit text) mc g hg).1
    have hR : joinSep [' '] (linesOf text mc) = joinSep [' '] (pySplit text) := by
      rw [h1]
      unfold wrapLines
      rw [joinSep_map_flatten _ hne, wrapGroups_flatten]
    rcases le_or_lt (joinSep [' '] (linesOf text mc)).length mc with hRle | hRgt
    · rcases hside with hs | hs
      · omega
      · obtain ⟨l, hl⟩ := List.length_eq_one.mp hs
        have hRl : joinSep [' '] (linesOf text mc) = l := by
          rw [hl, joinSep_singleton]
        rw [hRl] at hRle ⊢
        rw [linesOf_short l mc hRle]
        exact hl.symm
    · have hnle2 : ¬(joinSep [' '] (linesOf text mc)).length ≤ mc := not_le.mpr hRgt
      rw [linesOf_long _ _ hnle2, hR, pySplit_joinSep (pySplit text) hclean]
      exact h1.symm

/-- Refutation of C9 as stated: the 6-character text `ab␣␣cd` with
`max_chars = 5` wraps to the two lines `ab` / `cd` (the loop counts
`len(word) + 1` even for the first word, so `ab cd` of length exactly 5 is
split), but the rejoined text `ab cd` has length 5 <= 5 and the second wrap
returns it unchanged as a single line: the line breaks differ. -/
theorem spec_C9_counterexample :
    (0 : ℕ) < 5 ∧ ex9.length = 6 ∧
    linesOf ex9 5 = [['a', 'b'], ['c', 'd']] ∧
    joinSep [' '] (linesOf ex9 5) = ['a', 'b', ' ', 'c', 'd'] ∧
    linesOf (joinSep [' '] (linesOf ex9 5)) 5 = [['a', 'b', ' ', 'c', 'd']] ∧
    linesOf (joinSep [' '] (linesOf ex9 5)) 5 ≠ linesOf ex9 5 := by
  decide

/-- C10: every line produced by the wrapper that contains two or more words
has total length (with its single separating spaces) at most `max_chars`;
equivalently, a returned line longer than `max_chars` is exactly one word. -/
theorem spec_C10 (text : List Char) (mc : ℕ) (hmc : 0 < mc) :
    ∀ l ∈ linesOf text mc,
      (2 ≤ (pySplit l).length → l.length ≤ mc) ∧
      (mc < l.length → pySplit l = [l]) := by
  intro l hl
  by_cases hshort : text.length ≤ mc
  · rw [linesOf_short text mc hshort, List.mem_singleton] at hl
    subst hl
    exact ⟨fun _ => hshort, fun h => absurd hshort (not_le.mpr h)⟩
  · rw [linesOf_long text mc hshort] at hl
    unfold wrapLines at hl
    obtain ⟨g, hg, rfl⟩ := List.mem_map.mp hl
    obtain ⟨hgne, hglen⟩ := wrapGroups_ok (pySplit text) mc g hg
    have hclean := pySplitAux_clean text [] (by simp)
    have hwmem : ∀ w ∈ g, w ∈ pySplit text := by
      intro w hw
      have hmem : w ∈ (wrapGroups (pySplit text) mc).flatten :=
        List.mem_flatten_of_mem hg hw
      rwa [wrapGroups_flatten] at hmem
    have hsplitg : pySplit (joinSep [' '] g) = g :=
      pySplit_joinSep g (fun w hw => hclean w (hwmem w hw))
    constructor
    · intro h2
      rw [hsplitg] at h2
      exact hglen h2
    · intro hlong
      rcases Nat.lt_or_ge g.length 2 with hg2 | hg2
      · have hg1 : g.length = 1 := by
          rcases Nat.eq_zero_or_pos g.length with h0 | h0
          · exact absurd (List.length_eq_zero.mp h0) hgne
          · omega
        obtain ⟨w, rfl⟩ := List.length_eq_one.mp hg1
        rw [joinSep_singleton] at hsplitg ⊢
        rw [hsplitg]
      · exact absurd (hglen hg2) (by omega)

/-! ## Concrete-data lemmas and witnesses -/

lemma dummy_wf : WellFormed dummyData := by
  constructor
  · intro r hr
    simp only [dummyData, List.mem_cons, List.not_mem_nil, or_false] at hr
    rcases hr with h | h | h | h | h | h <;> (subst h; constructor <;> norm_num)
  · simp only [dummyData, List.chain'_cons, List.chain'_singleton, and_true]

lemma dummy_logDepth : logDepth dummyData = 15 := by
  simp only [logDepth, dummyData, List.foldl_cons, List.foldl_nil]
  norm_num [max_def]

lemma dummy_pageCount : pageCount dummyData = 2 := by
  rw [pageCount, dummy_logDepth]
  have h : ⌈(15 : ℚ) / 10⌉ = 2 := by
    rw [Int.ceil_eq_iff]
    norm_num
  rw [h]
  rfl

lemma dummy_clip2 : clipPage dummyData 2 =
    [⟨5, 10, 15, "801", "Weathered MUDSTONE, grey, fissured", 10, 15⟩] := by
  simp only [clipPage, clipAux, clipRow, dummyData, pageTop, pageBot]
  norm_num [min_def, max_def]

/-- Witness for C1 at the source file's dummy borehole data. -/
theorem spec_C1_witness :
    WellFormed dummyData ∧
    ((∀ (i : ℕ) (r : Stratum), dummyData.get? i = some r →
        ∑ p ∈ Finset.range (pageCount dummyData), spanSum dummyData (p + 1) i =
          r.base - r.top) ∧
      (∀ p : ℕ, 1 ≤ p → p ≤ pageCount dummyData →
        (clipPage dummyData p).Pairwise (fun s t => s.base ≤ t.top))) :=
  ⟨dummy_wf, spec_C1 dummyData dummy_wf⟩

/-- Witness for C2 at the dummy data, page 1, interval 4 (`GRAVEL`, 7–10). -/
theorem spec_C2_witness :
    WellFormed dummyData ∧ 1 ≤ pageCount dummyData ∧
    dummyData.get? 4 = some ⟨7, 10, "504", "Dense sandy GRAVEL, occasional cobbles"⟩ ∧
    (((∃! s, s ∈ clipPage dummyData 1 ∧ s.origIdx = 4) ↔
      (pageTop 1 < (⟨7, 10, "504", "Dense sandy GRAVEL, occasional cobbles"⟩ : Stratum).base ∧
        (⟨7, 10, "504", "Dense sandy GRAVEL, occasional cobbles"⟩ : Stratum).top < pageBot 1)) ∧
    (∀ s ∈ clipPage dummyData 1, s.origIdx = 4 →
      s.top = max (⟨7, 10, "504", "Dense sandy GRAVEL, occasional cobbles"⟩ : Stratum).top (pageTop 1) ∧
      s.base = min (⟨7, 10, "504", "Dense sandy GRAVEL, occasional cobbles"⟩ : Stratum).base (pageBot 1)) ∧
    (clipPage dummyData 1).Pairwise (fun s t => s.top < t.top ∧ s.base ≤ t.top)) :=
  ⟨dummy_wf, by rw [dummy_pageCount]; norm_num, rfl,
    spec_C2 dummyData dummy_wf 1 (le_refl 1) (by rw [dummy_pageCount]; norm_num) 4 _ rfl⟩

/-- Witness for C3 at the dummy data (max depth 15, 2 pages). -/
theorem spec_C3_witness :
    WellFormed dummyData ∧ dummyData ≠ [] ∧
    (pageCount dummyData = (⌈logDepth dummyData / 10⌉).toNat ∧
      pageNums dummyData = List.range' 1 (pageCount dummyData) ∧
      (∀ k : ℕ, logDepth dummyData = 10 * k → pageCount dummyData = k) ∧
      clipPage dummyData (pageCount dummyData) ≠ []) :=
  ⟨dummy_wf, by simp [dummyData], spec_C3 dummyData dummy_wf (by simp [dummyData])⟩

/-- Witness for C4 at the dummy data, page 2, the MUDSTONE segment 10–15. -/
theorem spec_C4_witness :
    WellFormed dummyData ∧
    (⟨5, 10, 15, "801", "Weathered MUDSTONE, grey, fissured", 10, 15⟩ : Seg) ∈
      clipPage dummyData 2 ∧
    ((showTopLabel ⟨5, 10, 15, "801", "Weathered MUDSTONE, grey, fissured", 10, 15⟩ = true ↔
      (|(10 : ℚ) - 10| < eps ∧ (0 : ℚ) < 10)) ∧
    (showBaseLabel ⟨5, 10, 15, "801", "Weathered MUDSTONE, grey, fissured", 10, 15⟩ = true ↔
      |(15 : ℚ) - 15| < eps) ∧
    (pageBot 2 + eps ≤ 15 →
      showBaseLabel ⟨5, 10, 15, "801", "Weathered MUDSTONE, grey, fissured", 10, 15⟩ = false) ∧
    ((10 : ℚ) + eps ≤ pageTop 2 →
      showTopLabel ⟨5, 10, 15, "801", "Weathered MUDSTONE, grey, fissured", 10, 15⟩ = false)) :=
  ⟨dummy_wf, by rw [dummy_clip2]; exact List.mem_singleton_self _,
    spec_C4 dummyData dummy_wf 2 _ (by rw [dummy_clip2]; exact List.mem_singleton_self _)⟩

/-- Witness for C5 at the dummy data, page 2 (borehole ends at 15, page spans
10–20, so the true end lies strictly inside the page). -/
theorem spec_C5_witness :
    WellFormed dummyData ∧ 1 ≤ 2 ∧ 2 ≤ pageCount dummyData ∧
    ((logDepth dummyData < pageBot 2 →
      closingLineY dummyData 2 = depthToY (pageTop 2) (logDepth dummyData) ∧
      ∀ b ∈ pageBars dummyData 2,
        depthToY (pageTop 2) (logDepth dummyData) ≤ b.yBot ∧
        b.textY = (b.yTop + b.yBot) / 2 ∧
        (b.yBaseRaw < b.yBot → b.textY ≠ (b.yTop + b.yBaseRaw) / 2)) ∧
    (pageBot 2 ≤ logDepth dummyData → closingLineY dummyData 2 = bottomLineY)) :=
  ⟨dummy_wf, by norm_num, by rw [dummy_pageCount],
    spec_C5 dummyData 2 dummy_wf (by norm_num) (by rw [dummy_pageCount])⟩

/-- Witness for C7 at page 1. -/
theorem spec_C7_witness :
    1 ≤ 1 ∧
    ((majorTicks 1).length = 11 ∧
    (majorTicks 1).map MajorTick.depth = List.range' (10 * (1 - 1)) 11 ∧
    (∀ t ∈ majorTicks 1, t.label = t.depth ∧
      t.y = depthToY (pageTop 1) (t.depth : ℚ)) ∧
    (minorTicks 1).length = 90 ∧
    (∀ t ∈ minorTicks 1, t.y = depthToY (pageTop 1) t.depth) ∧
    (∀ k : ℕ, k < 10 →
      ((minorTicks 1).filter (fun t =>
        decide (((10 * (1 - 1) + k : ℕ) : ℚ) < t.depth ∧
          t.depth < ((10 * (1 - 1) + k + 1 : ℕ) : ℚ)))).length = 9)) :=
  ⟨le_refl 1, spec_C7 1 (le_refl 1)⟩

/-- Witness for C8 at a source description text with a 20-character budget. -/
theorem spec_C8_witness :
    0 < 20 ∧
    ((exText.length ≤ 20 → wrapText exText 20 = exText ∧ linesOf exText 20 = [exText]) ∧
    (20 < exText.length →
      wrapText exText 20 = joinSep ['\n'] (greedyLinesSpec 20 (pySplit exText)) ∧
      linesOf exText 20 = greedyLinesSpec 20 (pySplit exText)) ∧
    (∀ w ∈ pySplit exText, 20 < w.length →
      [w] ∈ wrapGroups (pySplit exText) 20 ∧ w ∈ linesOf exText 20)) :=
  ⟨by norm_num, spec_C8 exText 20 (by norm_num)⟩

/-- Witness for C9 at a source description text: the rejoined text is longer
than the budget, so rewrapping reproduces the same lines. -/
theorem spec_C9_witness :
    (0 < 20 ∧
      (20 < (joinSep [' '] (linesOf exText 20)).length ∨
        (linesOf exText 20).length = 1)) ∧
    linesOf (joinSep [' '] (linesOf exText 20)) 20 = linesOf exText 20 :=
  ⟨⟨by norm_num, by decide⟩, spec_C9 exText 20 (by norm_num) (by decide)⟩

/-- Witness for C10 at a source description text with a 20-character budget. -/
theorem spec_C10_witness :
    0 < 20 ∧
    (∀ l ∈ linesOf exText 20,
      (2 ≤ (pySplit l).length → l.length ≤ 20) ∧
      (20 < l.length → pySplit l = [l])) :=
  ⟨by norm_num, spec_C10 exText 20 (by norm_num)⟩
